import Mathlib

/-!
Shallow embedding of the `jx promote` command (package `cmd`, file modelled
from `src/unnamed/part_000`): version resolution (`findLatestVersion`),
target-namespace resolution (`GetTargetNamespace`), the multi-environment
sweep (`PromoteAllAutomatic`), and the GitOps merge-status poll loop
(`WaitForPromotion` / `waitForGitOpsPullRequest`).

External collaborators (Kubernetes clients, the Git provider, the helm
client, the activity ledger) are modelled as inputs: per-iteration
observations carry the results of the provider calls, and ledger writes are
recorded as an effect trace.  Log statements are not modelled.
-/

/- ### Semantic versions (external library `github.com/blang/semver`)

Modelled from the library's documented grammar restricted to plain
`MAJOR.MINOR.PATCH` versions: three dot-separated decimal numerals with no
leading zeros.  Pre-release and build tags are not modelled; none of the
claims mention them. -/

structure SemVer where
  major : Nat
  minor : Nat
  patch : Nat
deriving DecidableEq, Repr

/-- Splits a character list on `'.'` (each dot separates two fields). -/
def splitOnDot : List Char → List (List Char)
  | [] => [[]]
  | c :: rest =>
    let r := splitOnDot rest
    if c = '.' then [] :: r
    else
      match r with
      | [] => [[c]]
      | p :: ps => (c :: p) :: ps

/-- Accumulates decimal digits; fails on a non-digit character. -/
def parseDigitsAux (acc : Nat) : List Char → Option Nat
  | [] => some acc
  | c :: rest => if c.isDigit then parseDigitsAux (acc * 10 + (c.toNat - 48)) rest else none

/-- A numeric semver field: digits only, no leading zero. -/
def parseSemVerNum : List Char → Option Nat
  | [] => none
  | [c] => if c.isDigit then some (c.toNat - 48) else none
  | c :: rest => if c = '0' then none else parseDigitsAux 0 (c :: rest)

/-- `semver.Parse`: `MAJOR.MINOR.PATCH`, all three fields numeric. -/
def semverParse (s : String) : Option SemVer :=
  match splitOnDot s.data with
  | [a, b, c] =>
    match parseSemVerNum a, parseSemVerNum b, parseSemVerNum c with
    | some x, some y, some z => some ⟨x, y, z⟩
    | _, _, _ => none
  | _ => none

/-- Strict precedence order on semantic versions: lexicographic on
`(major, minor, patch)`.  `a.Compare b > 0` in the Go library means
`SemVer.ltb b a`. -/
def SemVer.ltb (a b : SemVer) : Bool :=
  a.major < b.major ||
    (a.major == b.major &&
      (a.minor < b.minor || (a.minor == b.minor && a.patch < b.patch)))

/-- `semver.Version.String`: renders `major.minor.patch`. -/
def SemVer.render (v : SemVer) : String :=
  Nat.repr v.major ++ "." ++ Nat.repr v.minor ++ "." ++ Nat.repr v.patch

/-- Lexicographic order on character lists by code point, matching Go's
byte-lexicographic `strings.Compare` on the ASCII version strings involved. -/
def charListLt : List Char → List Char → Bool
  | [], [] => false
  | [], _ :: _ => true
  | _ :: _, [] => false
  | a :: as, b :: bs => decide (a.toNat < b.toNat) || (a.toNat == b.toNat && charListLt as bs)

/-- `strings.Compare(a, b) > 0`: `a` is lexicographically greater than `b`. -/
def stringsCompareGt (a b : String) : Bool := charListLt b.data a.data

/-- Whether `needle` occurs at the head of the second list. -/
def charListLeads : List Char → List Char → Bool
  | [], _ => true
  | _ :: _, [] => false
  | a :: as, b :: bs => a == b && charListLeads as bs

/-- Whether `needle` occurs anywhere inside the second list (substring
occurrence, used to state what an error message does or does not
mention). -/
def charListHasSub (needle : List Char) : List Char → Bool
  | [] => charListLeads needle []
  | c :: rest => charListLeads needle (c :: rest) || charListHasSub needle rest

/- ### `findLatestVersion` (the VersionResolver)

One fold step of the loop body in `findLatestVersion`.  The accumulator is
the pair `(maxSemVer, maxString)`.  Note the source condition
`maxSemVer.Compare(sv) > 0` replaces the running value when the *running
value* compares greater than the candidate. -/
def findLatestVersionStep (acc : Option SemVer × String) (version : String) :
    Option SemVer × String :=
  match semverParse version with
  | none =>
    if acc.2 == "" || stringsCompareGt version acc.2 then (acc.1, version) else acc
  | some sv =>
    match acc.1 with
    | none => (some sv, acc.2)
    | some maxSemVer => if SemVer.ltb sv maxSemVer then (some sv, acc.2) else acc

/-- `findLatestVersion`: folds the step over the versions returned by the
chart search (the search itself is an external call; its result is the
`versions` argument), then prefers the semver track over the raw-string
track, and fails when both are empty. -/
def findLatestVersion (app : String) (versions : List String) : Except String String :=
  let acc := versions.foldl findLatestVersionStep (none, "")
  match acc.1 with
  | some maxSemVer => .ok maxSemVer.render
  | none =>
    if acc.2 == "" then
      .error ("Could not find a version of app " ++ app ++ " in the helm repositories")
    else .ok acc.2

/- ### Environments and the promotion coordinator -/

/-- `v1.Environment` restricted to the fields the promote command reads:
name, `Spec.Namespace`, `Spec.PromotionStrategy`, `Spec.Kind`, `Spec.Order`. -/
structure Environment where
  name : String
  nameSpace : String
  promotionStrategy : String
  kind : String
  order : Int
deriving DecidableEq, Repr

def promotionStrategyTypeAutomatic : String := "Automatic"

def environmentKindTypePermanent : String := "Permanent"

/-- Modelled from the spec: `EnvironmentKindType.IsPermanent` lives outside
this source (§3 gives the kinds `Permanent`, `Preview`, other; §4.1 filters
to "`Automatic` strategy and `Permanent` kind"). -/
def envKindIsPermanent (kind : String) : Bool := kind == environmentKindTypePermanent

/-- The filter applied inside the sweep loop: `Automatic` strategy and
permanent kind. -/
def autoPermanent (e : Environment) : Bool :=
  e.promotionStrategy == promotionStrategyTypeAutomatic && envKindIsPermanent e.kind

/-- Ascending comparison used by the environment sort: by the explicit
ordering attribute, ties broken by name. -/
def envLE (a b : Environment) : Prop :=
  a.order < b.order ∨ (a.order = b.order ∧ a.name ≤ b.name)

instance (a b : Environment) : Decidable (envLE a b) := by
  unfold envLE; infer_instance

def insertEnv (x : Environment) : List Environment → List Environment
  | [] => [x]
  | y :: ys => if envLE x y then x :: y :: ys else y :: insertEnv x ys

/-- Modelled from the spec: `kube.SortEnvironments` lives outside this
source; §4.1 — "sort ascending by the explicit ordering attribute". -/
def sortEnvironments (l : List Environment) : List Environment :=
  l.foldr insertEnv []

/-- Errors surfaced by the promote command paths modelled here. -/
inductive JxError where
  | noEnvironments (team : String)
  | invalidOption (option value : String) (values : List String)
  | noNamespaceForEnv (env : String)
  | noNamespace (env : String)
  | external (msg : String)
deriving DecidableEq, Repr

def optionEnvironment : String := "env"

/-- `GetTargetNamespace`.  The cluster lookups preceding the environment
query are external; their results are the `team`, `currentNs`, `envMap`
and `envNames` arguments (`envMap`/`envNames` stand for the pair returned
by `kube.GetEnvironments`).  `kube.EnsureNamespaceCreated` is an external
side effect and is not modelled. -/
def GetTargetNamespace (team currentNs : String) (envMap : String → Option Environment)
    (envNames : List String) (ns env : String) :
    Except JxError (String × Option Environment) :=
  if envNames.isEmpty then .error (.noEnvironments team)
  else if env ≠ "" then
    match envMap env with
    | none => .error (.invalidOption optionEnvironment env envNames)
    | some envResource =>
      if envResource.nameSpace == "" then .error (.noNamespaceForEnv env)
      else .ok (envResource.nameSpace, some envResource)
  else if ns ≠ "" then .ok (ns, none)
  else .ok (currentNs, none)

/-- The body of `PromoteAllAutomatic`'s loop over the sorted environments.
`promoteResult e` / `waitResult e` are the outcomes of the external
`Promote` and `WaitForPromotion` calls for environment `e` (`none` means
success).  The second component lists, in order, the environments for
which `Promote` was invoked. -/
def promoteAllAutomaticLoop (promoteResult waitResult : Environment → Option JxError) :
    List Environment → Option JxError × List String
  | [] => (none, [])
  | env :: rest =>
    if autoPermanent env then
      if env.nameSpace == "" then (some (.noNamespace env.name), [])
      else
        match promoteResult env with
        | some e => (some e, [env.name])
        | none =>
          match waitResult env with
          | some e => (some e, [env.name])
          | none =>
            let r := promoteAllAutomaticLoop promoteResult waitResult rest
            (r.1, env.name :: r.2)
    else promoteAllAutomaticLoop promoteResult waitResult rest

/-- `PromoteAllAutomatic`: fetches all environments (external; the result
is the `envs` argument — a fetch failure or an empty list is logged and
returns nil), sorts them, and promotes sequentially through the loop. -/
def PromoteAllAutomatic (promoteResult waitResult : Environment → Option JxError)
    (envs : List Environment) : Option JxError × List String :=
  if envs.isEmpty then (none, [])
  else promoteAllAutomaticLoop promoteResult waitResult (sortEnvironments envs)

/- ### The GitOps merge-status poller -/

/-- `gits.GitPullRequest` restricted to the fields the poller reads.  The
`closed` flag models `IsClosed()` (the pull request was closed without
merging). -/
structure GitPullRequest where
  url : String
  owner : String
  repo : String
  merged : Option Bool
  mergeCommitSHA : Option String
  mergeable : Option Bool
  lastCommitSha : String
  closed : Bool
deriving DecidableEq, Repr

/-- `gits.GitRepoStatus` (one commit-status context): context URL, state,
target URL and description. -/
structure GitStatus where
  url : String
  state : String
  targetURL : String
  description : String
deriving DecidableEq, Repr

def gitStatusSuccess : String := "success"

/-- Modelled from the spec: `GitRepoStatus.IsFailed` lives outside this
source; a failed state is `failure` or `error` (§4.5, claim C4). -/
def GitStatus.isFailed (s : GitStatus) : Bool :=
  s.state == "error" || s.state == "failure"

/-- `ReleasePullRequestInfo`: the tracked pull-request handle.  The Git
provider handle and the creation arguments are opaque collaborators and
are not modelled. -/
structure ReleasePullRequestInfo where
  pullRequest : GitPullRequest
deriving DecidableEq, Repr

/-- `ReleaseInfo` (release name, fully-qualified app, version, optional
pull-request info). -/
structure ReleaseInfo where
  releaseName : String
  fullAppName : String
  version : String
  pullRequestInfo : Option ReleasePullRequestInfo
deriving DecidableEq, Repr

/-- The loop state of `waitForGitOpsPullRequest`: the tracked
`pullRequestInfo`, the log-once flags, and the per-URL status
deduplication maps (Go maps, modelled as association lists whose lookup
yields `""` for an absent key, as a Go map read does). -/
structure PollState where
  pullRequestInfo : ReleasePullRequestInfo
  logMergeFailure : Bool
  logNoMergeCommitSha : Bool
  logHasMergeSha : Bool
  logMergeStatusError : Bool
  logNoMergeStatuses : Bool
  urlStatusMap : List (String × String)
  urlStatusTargetURLMap : List (String × String)
deriving DecidableEq, Repr

/-- Go map read with the zero value `""` for an absent key. -/
def mapGet (m : List (String × String)) (k : String) : String :=
  match m.find? (fun p => p.1 == k) with
  | some p => p.2
  | none => ""

/-- Go map write: replaces the value of an existing key in place, appends
a new key. -/
def mapSet (m : List (String × String)) (k v : String) : List (String × String) :=
  if m.any (fun p => p.1 == k) then
    m.map (fun p => if p.1 == k then (k, v) else p)
  else m ++ [(k, v)]

/-- Insertion sort on strings (`util.SortedMapKeys` sorts the map's keys
lexicographically). -/
def insertString (x : String) : List String → List String
  | [] => [x]
  | y :: ys => if charListLt y.data x.data then y :: insertString x ys else x :: y :: ys

def sortedMapKeys (m : List (String × String)) : List String :=
  (m.map Prod.fst).foldr insertString []

/-- Errors returned by `waitForGitOpsPullRequest` (each constructor is one
`fmt.Errorf` site, carrying exactly the values that site formats). -/
inductive GoError where
  | queryPullRequestStatusFailed (url err : String)
  | commitStatusFailed (state targetURL description : String)
  | pullRequestClosed (url : String)
  | lastCommitStatusFailed (url status ref : String)
  | timedOut (url : String) (duration : Nat)
  | commentFailed (err : String)
deriving DecidableEq, Repr

/-- The formatted message of each error site (the `fmt.Errorf` format
string with its arguments spliced in; the timeout message renders the
configured duration via `Duration.String`, abbreviated here to the raw
number). -/
def GoError.message : GoError → String
  | .queryPullRequestStatusFailed url err =>
    "Failed to query the Pull Request status for " ++ url ++ " " ++ err
  | .commitStatusFailed state targetURL description =>
    "Status: " ++ state ++ " URL: " ++ targetURL ++ " description: " ++ description ++ "\n"
  | .pullRequestClosed url =>
    "Promotion failed as Pull Request " ++ url ++ " is closed without merging"
  | .lastCommitStatusFailed url status ref =>
    "Pull request " ++ url ++ " last commit has status " ++ status ++ " for ref " ++ ref
  | .timedOut url duration =>
    "Timed out waiting for pull request " ++ url ++ " to merge. Waited " ++ Nat.repr duration
  | .commentFailed err => err

/-- External calls made by one loop iteration, with the arguments they
were given; ledger transitions applied through the activity key are
recorded the same way. -/
inductive PromoteEffect where
  | updatePullRequestStatus (url : String)
  | completePullRequestStep (sha : String)
  | startUpdateStep
  | listCommitStatus (owner repo sha : String)
  | recordStatuses (statuses : List (String × String))
  | queryLastCommitStatus (url : String)
  | mergePullRequest (url : String)
  | commentOnIssues
  | completeUpdateStep
  | promoteViaPullRequest
  | failPullRequestStep
deriving DecidableEq, Repr

/-- One iteration's observations of the external world: the refreshed pull
request (or the refresh failure), the commit statuses of the merge sha,
the aggregate status of the last commit, the merge attempt's outcome, the
outcome of the best-effort `commentOnIssues` call, the pull-request info
produced by a rebase (`PromoteViaPullRequest` re-run; the code tracks
whatever info that call leaves behind), and the clock value at this
iteration's deadline check. -/
structure PollObs where
  refresh : Except String GitPullRequest
  listStatuses : Except String (List GitStatus)
  lastCommitStatus : Except String String
  mergeError : Option String
  commentError : Option String
  rebaseInfo : ReleasePullRequestInfo
  now : Nat

/-- The inner `for _, status := range statuses` loop: stops at the first
failed status, otherwise folds the deduplicating updates into the two
URL-keyed maps. -/
def processStatuses (m mt : List (String × String)) :
    List GitStatus → Except GitStatus (List (String × String) × List (String × String))
  | [] => .ok (m, mt)
  | status :: rest =>
    if status.isFailed then .error status
    else
      let cur := mapGet m status.url
      if cur == "" || !(cur == gitStatusSuccess) then
        if !(cur == status.state) then
          processStatuses (mapSet m status.url status.state)
            (mapSet mt status.url status.targetURL) rest
        else processStatuses m mt rest
      else processStatuses m mt rest

/-- The outcome of one loop iteration: a `return` from the function, or
the state carried into the next iteration. -/
inductive StepOutcome where
  | done (result : Except GoError Unit)
  | next (st : PollState)

/-- One iteration of the `for` loop in `waitForGitOpsPullRequest`, given
that iteration's observations.  Returns the outcome and the external
calls/ledger transitions performed, in order. -/
def pollStep (noMergePullRequest : Bool) (endTime duration : Nat)
    (st : PollState) (o : PollObs) : StepOutcome × List PromoteEffect :=
  let pr0 := st.pullRequestInfo.pullRequest
  let e0 : List PromoteEffect := [.updatePullRequestStatus pr0.url]
  match o.refresh with
  | .error msg => (.done (.error (.queryPullRequestStatusFailed pr0.url msg)), e0)
  | .ok pr =>
    -- the refresh mutates the tracked pull request in place
    let stR : PollState := { st with pullRequestInfo := { pullRequest := pr } }
    let phase1 : (Except GoError Unit × List PromoteEffect) ⊕ (PollState × List PromoteEffect) :=
      if pr.merged = some true then
        match pr.mergeCommitSHA with
        | none => .inr ({ stR with logNoMergeCommitSha := true }, [])
        | some mergeSha =>
          let effA : List PromoteEffect :=
            (if stR.logHasMergeSha then [] else [.completePullRequestStep mergeSha]) ++
              [.startUpdateStep, .listCommitStatus pr.owner pr.repo mergeSha]
          let st1 : PollState := { stR with logHasMergeSha := true }
          match o.listStatuses with
          | .error _ => .inr ({ st1 with logMergeStatusError := true }, effA)
          | .ok statuses =>
            if statuses.isEmpty then .inr ({ st1 with logNoMergeStatuses := true }, effA)
            else
              match processStatuses st1.urlStatusMap st1.urlStatusTargetURLMap statuses with
              | .error failed =>
                .inl (.error (.commitStatusFailed failed.state failed.targetURL
                  failed.description), effA)
              | .ok (m, mt) =>
                let prStatuses := (sortedMapKeys m).map (fun url =>
                  let state := mapGet m url
                  let targetURL := mapGet mt url
                  (if targetURL == "" then url else targetURL, state))
                let effB := effA ++ [.recordStatuses prStatuses]
                let st2 : PollState := { st1 with urlStatusMap := m, urlStatusTargetURLMap := mt }
                if m.all (fun p => p.2 == gitStatusSuccess) then
                  match o.commentError with
                  | some cerr => .inl (.error (.commentFailed cerr), effB ++ [.commentOnIssues])
                  | none => .inl (.ok (), effB ++ [.commentOnIssues, .completeUpdateStep])
                else .inr (st2, effB)
      else
        if pr.closed then .inl (.error (.pullRequestClosed pr.url), [])
        else
          let eQ : List PromoteEffect := [.queryLastCommitStatus pr.url]
          match o.lastCommitStatus with
          | .error _ => .inr (stR, eQ)
          | .ok status =>
            if status == "in-progress" then .inr (stR, eQ)
            else if status == gitStatusSuccess then
              if noMergePullRequest then .inr (stR, eQ)
              else
                match o.mergeError with
                | none => .inr (stR, eQ ++ [.mergePullRequest pr.url])
                | some _ =>
                  .inr ({ stR with logMergeFailure := true }, eQ ++ [.mergePullRequest pr.url])
            else if status == "error" || status == "failure" then
              .inl (.error (.lastCommitStatusFailed pr.url status pr.lastCommitSha), eQ)
            else .inr (stR, eQ)
    match phase1 with
    | .inl (r, effs) => (.done r, e0 ++ effs)
    | .inr (st2, effs) =>
      let rebase := pr.mergeable = some false
      let st3 : PollState :=
        if rebase then { st2 with pullRequestInfo := o.rebaseInfo } else st2
      let effs2 : List PromoteEffect := if rebase then [.promoteViaPullRequest] else []
      if o.now > endTime then
        (.done (.error (.timedOut pr.url duration)), e0 ++ effs ++ effs2)
      else (.next st3, e0 ++ effs ++ effs2)

/-- Runs the loop over a (finite prefix of the) sequence of per-iteration
observations.  `none` means the trace was exhausted with the loop still
polling. -/
def runPoll (noMergePullRequest : Bool) (endTime duration : Nat) :
    PollState → List PollObs → Option (Except GoError Unit) × List PromoteEffect
  | _, [] => (none, [])
  | st, o :: rest =>
    match pollStep noMergePullRequest endTime duration st o with
    | (.done r, effs) => (some r, effs)
    | (.next st', effs) =>
      let r := runPoll noMergePullRequest endTime duration st' rest
      (r.1, effs ++ r.2)

/-- The loop state on entry to `waitForGitOpsPullRequest`: every log-once
flag false and both dedup maps empty. -/
def initPollState (info : ReleasePullRequestInfo) : PollState :=
  { pullRequestInfo := info
    logMergeFailure := false
    logNoMergeCommitSha := false
    logHasMergeSha := false
    logMergeStatusError := false
    logNoMergeStatuses := false
    urlStatusMap := []
    urlStatusTargetURLMap := [] }

/-- `waitForGitOpsPullRequest`: returns nil at once when the release has
no pull-request info, else runs the poll loop. -/
def waitForGitOpsPullRequest (noMergePullRequest : Bool) (endTime duration : Nat)
    (pullRequestInfo : Option ReleasePullRequestInfo) (trace : List PollObs) :
    Option (Except GoError Unit) × List PromoteEffect :=
  match pullRequestInfo with
  | none => (some (.ok ()), [])
  | some info => runPoll noMergePullRequest endTime duration (initPollState info) trace

/-- `WaitForPromotion`: returns nil at once when either parsed duration is
absent; otherwise computes the absolute deadline once (`now + timeout`),
and — only when the release carries pull-request info — polls, marking the
`PullRequestStep` failed when the poller returns an error. -/
def WaitForPromotion (timeoutDuration pollDuration : Option Nat) (noMergePullRequest : Bool)
    (now : Nat) (releaseInfo : ReleaseInfo) (trace : List PollObs) :
    Option (Except GoError Unit) × List PromoteEffect :=
  match timeoutDuration with
  | none => (some (.ok ()), [])
  | some duration =>
    match pollDuration with
    | none => (some (.ok ()), [])
    | some _ =>
      let endTime := now + duration
      match releaseInfo.pullRequestInfo with
      | none => (some (.ok ()), [])
      | some info =>
        let r := runPoll noMergePullRequest endTime duration (initPollState info) trace
        match r.1 with
        | some (.error e) => (some (.error e), r.2 ++ [.failPullRequestStep])
        | other => (other, r.2)

/- ### Concrete fixtures used by the claim theorems, their witnesses and counterexamples -/

/-- An open, not-yet-merged pull request used by concrete runs. -/
def samplePR : GitPullRequest :=
  { url := "https://bitbucket.example/pr/7"
    owner := "own"
    repo := "rep"
    merged := some false
    mergeCommitSHA := none
    mergeable := some true
    lastCommitSha := "sha0"
    closed := false }

/-- A quiet iteration of the poll loop against `samplePR`: refresh
succeeds, the last commit's aggregate status is still in progress, the
deadline has not passed. -/
def sampleQuietObs : PollObs :=
  { refresh := .ok samplePR
    listStatuses := .ok []
    lastCommitStatus := .ok "in-progress"
    mergeError := none
    commentError := none
    rebaseInfo := ⟨samplePR⟩
    now := 0 }

/-- A merged pull request whose merge commit is `abc123def`. -/
def mergedSamplePR : GitPullRequest :=
  { url := "https://bitbucket.example/pr/7"
    owner := "own"
    repo := "rep"
    merged := some true
    mergeCommitSHA := some "abc123def"
    mergeable := none
    lastCommitSha := "sha0"
    closed := false }

/-- A commit-status context that passed. -/
def passingStatus : GitStatus :=
  { url := "https://ci.example/ctxA"
    state := "success"
    targetURL := "https://ci.example/build/6"
    description := "ok" }

/-- A commit-status context that failed. -/
def failingStatus : GitStatus :=
  { url := "https://ci.example/ctxB"
    state := "failure"
    targetURL := "https://ci.example/build/7"
    description := "Tests failed" }

/-- An iteration observing the merged pull request with one passed and one
failed context. -/
def failedStatusObs : PollObs :=
  { refresh := .ok mergedSamplePR
    listStatuses := .ok [passingStatus, failingStatus]
    lastCommitStatus := .ok "in-progress"
    mergeError := none
    commentError := none
    rebaseInfo := ⟨mergedSamplePR⟩
    now := 0 }

/-- A poll iteration observation that keeps the loop waiting: the refresh
succeeds yielding `pr`, the pull request is neither merged nor closed,
and the last commit's aggregate status is not `error`/`failure`. -/
def quietRefresh (pr : GitPullRequest) (o : PollObs) : Prop :=
  o.refresh = .ok pr ∧ pr.merged ≠ some true ∧ pr.closed = false ∧
    ∀ s, o.lastCommitStatus = .ok s → s ≠ "error" ∧ s ≠ "failure"

/-- A pull request identical to `samplePR` but reported non-mergeable
(conflict). -/
def conflictPR : GitPullRequest :=
  { samplePR with mergeable := some false }

/-- The pull request produced by re-running the promoter during a rebase
(a fresh handle with a different URL). -/
def rebasedPR : GitPullRequest :=
  { samplePR with url := "https://bitbucket.example/pr/8" }

/-- An iteration observing the conflict, whose promoter re-run produces
`rebasedPR`. -/
def conflictObs : PollObs :=
  { sampleQuietObs with refresh := .ok conflictPR, rebaseInfo := ⟨rebasedPR⟩ }

/-- A quiet iteration observed after the configured deadline. -/
def lateQuietObs : PollObs :=
  { sampleQuietObs with now := 7200 }

/-- A release tracking `samplePR` through the GitOps path. -/
def sampleReleaseInfo : ReleaseInfo :=
  { releaseName := "jx-staging-myapp"
    fullAppName := "jenkins-x/myapp"
    version := "1.0.0"
    pullRequestInfo := some ⟨samplePR⟩ }

def lexMaxStep (m v : String) : String :=
  if m == "" || stringsCompareGt v m then v else m

/-- An automatic permanent environment. -/
def envStaging : Environment :=
  { name := "staging"
    nameSpace := "jx-staging"
    promotionStrategy := "Automatic"
    kind := "Permanent"
    order := 100 }

/-- A manual permanent environment (excluded from the sweep). -/
def envProduction : Environment :=
  { name := "production"
    nameSpace := "jx-production"
    promotionStrategy := "Manual"
    kind := "Permanent"
    order := 200 }

/-- An automatic preview environment (excluded from the sweep). -/
def envPreview : Environment :=
  { name := "preview"
    nameSpace := "jx-preview"
    promotionStrategy := "Automatic"
    kind := "Preview"
    order := 50 }

/-- A mixed, unsorted environment list for the sweep. -/
def sweepEnvs : List Environment := [envProduction, envStaging, envPreview]

/-- A pending commit-status context report. -/
def pendingStatus : GitStatus :=
  { url := "https://ci.example/ctxA"
    state := "pending"
    targetURL := "https://ci.example/build/6"
    description := "running" }

/-- An iteration observing the merged pull request with the pending
context. -/
def pendingObs : PollObs :=
  { refresh := .ok mergedSamplePR
    listStatuses := .ok [pendingStatus]
    lastCommitStatus := .ok "in-progress"
    mergeError := none
    commentError := none
    rebaseInfo := ⟨mergedSamplePR⟩
    now := 0 }

/-- The same iteration once the context has turned to success. -/
def successObs : PollObs :=
  { pendingObs with
      listStatuses := .ok ([pendingStatus].map (fun st => { st with state := gitStatusSuccess })) }

/-- An iteration in which every context reports success but the
best-effort `commentOnIssues` call fails. -/
def allSuccessCommentFailObs : PollObs :=
  { refresh := .ok mergedSamplePR
    listStatuses := .ok [passingStatus]
    lastCommitStatus := .ok "in-progress"
    mergeError := none
    commentError := some "cannot create git auth config service"
    rebaseInfo := ⟨mergedSamplePR⟩
    now := 0 }

/- ### C1, C10, C2, C6 -/

/-- C1: the claim states that `findLatestVersion` returns the greatest
parseable semantic version, in particular `"1.2.0"` on
`["1.0.0","1.2.0","0.9.5"]`.  The source's comparison is inverted
(`maxSemVer.Compare(sv) > 0` replaces the running value when the running
value compares *greater* than the candidate), so on this input the code
returns `"0.9.5"`. -/
theorem findLatestVersion_sample_is_0_9_5 :
    findLatestVersion "myapp" ["1.0.0", "1.2.0", "0.9.5"] = .ok "0.9.5" := rfl

/-- C10: `WaitForPromotion` returns nil immediately — no polling, no
status queries, no ledger transitions — whenever the parsed timeout
duration or the parsed poll duration is absent, or the release info
carries no pull-request info. -/
theorem WaitForPromotion_returns_immediately (timeoutDuration pollDuration : Option Nat)
    (noMergePullRequest : Bool) (now : Nat) (releaseInfo : ReleaseInfo) (trace : List PollObs)
    (h : timeoutDuration = none ∨ pollDuration = none ∨ releaseInfo.pullRequestInfo = none) :
    WaitForPromotion timeoutDuration pollDuration noMergePullRequest now releaseInfo trace =
      (some (.ok ()), []) := by
  rcases h with h | h | h
  · subst h; rfl
  · subst h; cases timeoutDuration <;> rfl
  · cases timeoutDuration <;> cases pollDuration <;> simp [WaitForPromotion, h]

/-- Witness for C10 at a concrete input (timeout duration absent). -/
theorem WaitForPromotion_returns_immediately_witness :
    WaitForPromotion none (some 20) false 0
      { releaseName := "jx-staging-myapp", fullAppName := "jenkins-x/myapp",
        version := "1.0.0", pullRequestInfo := none } [] = (some (.ok ()), []) :=
  WaitForPromotion_returns_immediately none (some 20) false 0
    { releaseName := "jx-staging-myapp", fullAppName := "jenkins-x/myapp",
      version := "1.0.0", pullRequestInfo := none } [] (Or.inl rfl)

/-- C2 counterexample: the claim states a failed refresh of the pull
request's status is retried on the next iteration rather than the poller
returning an error.  In the source the refresh failure is an immediate
`return fmt.Errorf(...)`: on a trace whose first iteration's refresh
fails (and whose second iteration would be perfectly quiet), the poller
returns the error after the first iteration and never performs the
second. -/
theorem pollRefreshFailure_not_retried :
    runPoll false 100 3600 (initPollState ⟨samplePR⟩)
      [{ sampleQuietObs with refresh := .error "connection reset" }, sampleQuietObs] =
      (some (.error (.queryPullRequestStatusFailed "https://bitbucket.example/pr/7"
        "connection reset")),
       [.updatePullRequestStatus "https://bitbucket.example/pr/7"]) := rfl

/-- C2 (amended): in every iteration of the poll loop, if the call that
refreshes the pull request's status fails, the poller immediately returns
an error naming the tracked pull request's URL and the underlying
failure; the loop terminates and no further work of that iteration or any
later iteration is performed. -/
theorem poll_refresh_failure_returns_error (noMergePullRequest : Bool)
    (endTime duration : Nat) (st : PollState) (o : PollObs) (rest : List PollObs)
    (msg : String) (h : o.refresh = .error msg) :
    runPoll noMergePullRequest endTime duration st (o :: rest) =
      (some (.error (.queryPullRequestStatusFailed st.pullRequestInfo.pullRequest.url msg)),
       [.updatePullRequestStatus st.pullRequestInfo.pullRequest.url]) := by
  simp [runPoll, pollStep, h]

/-- Witness for C2's amended theorem at a concrete input. -/
theorem poll_refresh_failure_returns_error_witness :
    runPoll true 50 60 (initPollState ⟨samplePR⟩)
      [{ sampleQuietObs with refresh := .error "HTTP 502" }] =
      (some (.error (.queryPullRequestStatusFailed "https://bitbucket.example/pr/7" "HTTP 502")),
       [.updatePullRequestStatus "https://bitbucket.example/pr/7"]) :=
  poll_refresh_failure_returns_error true 50 60 (initPollState ⟨samplePR⟩)
    { sampleQuietObs with refresh := .error "HTTP 502" } [] "HTTP 502" rfl

/-- C6: requesting an environment name unknown to the registry (which
knows at least one environment) makes target-namespace resolution fail
with the configuration error that carries every known environment name. -/
theorem GetTargetNamespace_unknown_env (team currentNs : String)
    (envMap : String → Option Environment) (envNames : List String) (ns env : String)
    (hcover : ∀ n, (envMap n).isSome ↔ n ∈ envNames)
    (hne : envNames ≠ []) (henv : env ≠ "") (hunknown : env ∉ envNames) :
    GetTargetNamespace team currentNs envMap envNames ns env =
      .error (.invalidOption optionEnvironment env envNames) := by
  have hmap : envMap env = none := by
    rcases h : envMap env with _ | e
    · rfl
    · exact absurd ((hcover env).mp (by simp [h])) hunknown
  have hempty : envNames.isEmpty = false := by
    cases envNames with
    | nil => exact absurd rfl hne
    | cons a l => rfl
  simp [GetTargetNamespace, hempty, henv, hmap]

/-- Witness for C6 at a concrete input: registry knows `staging` and
`production`; `preprod` is requested. -/
theorem GetTargetNamespace_unknown_env_witness :
    GetTargetNamespace "jx" "jx" (fun n =>
      if n == "staging" then
        some { name := "staging", nameSpace := "jx-staging",
               promotionStrategy := "Automatic", kind := "Permanent", order := 100 }
      else if n == "production" then
        some { name := "production", nameSpace := "jx-production",
               promotionStrategy := "Manual", kind := "Permanent", order := 200 }
      else none)
      ["staging", "production"] "" "preprod" =
      .error (.invalidOption optionEnvironment "preprod" ["staging", "production"]) :=
  GetTargetNamespace_unknown_env "jx" "jx" _ ["staging", "production"] "" "preprod"
    (by
      intro n
      by_cases h1 : n = "staging"
      · simp [h1]
      · by_cases h2 : n = "production" <;> simp [h1, h2])
    (by simp) (by simp) (by simp)

/- ### C4: a failed commit-status context is terminal -/

/-- The inner status loop stops at the first failed status, regardless of
the other statuses and of the accumulated dedup maps. -/
theorem processStatuses_first_failed (post : List GitStatus) (failed : GitStatus)
    (hf : failed.isFailed = true) :
    ∀ (pre : List GitStatus) (m mt : List (String × String)),
      (∀ s ∈ pre, s.isFailed = false) →
      processStatuses m mt (pre ++ failed :: post) = .error failed := by
  intro pre
  induction pre with
  | nil => intro m mt _; simp [processStatuses, hf]
  | cons s rest ih =>
    intro m mt hpre
    have hs : s.isFailed = false := hpre s (by simp)
    have hrest : ∀ x ∈ rest, x.isFailed = false := fun x hx => hpre x (by simp [hx])
    rw [List.cons_append]
    simp only [processStatuses, hs]
    split
    next h => exact Bool.noConfusion h
    next =>
      split
      · split
        · exact ih _ _ hrest
        · exact ih _ _ hrest
      · exact ih _ _ hrest

/-- C4 (amended): for a merged pull request with a merge-commit sha, if
any single commit-status context against that sha reports a failed state
(`failure` or `error`), the poller returns a terminal error carrying that
context's state, target URL and description — regardless of the other
contexts' states — without completing the promotion (the update step is
never marked complete).  The merge sha itself appears only in the log,
not in the returned error. -/
theorem poll_failed_status_terminal (noMergePullRequest : Bool) (endTime duration : Nat)
    (st : PollState) (o : PollObs) (rest : List PollObs) (pr : GitPullRequest) (sha : String)
    (pre post : List GitStatus) (failed : GitStatus)
    (hr : o.refresh = .ok pr) (hm : pr.merged = some true) (hsha : pr.mergeCommitSHA = some sha)
    (hls : o.listStatuses = .ok (pre ++ failed :: post))
    (hpre : ∀ s ∈ pre, s.isFailed = false) (hf : failed.isFailed = true) :
    ∃ effs, runPoll noMergePullRequest endTime duration st (o :: rest) =
        (some (.error (.commitStatusFailed failed.state failed.targetURL failed.description)),
          effs) ∧
      PromoteEffect.completeUpdateStep ∉ effs := by
  have hproc := processStatuses_first_failed post failed hf pre
    st.urlStatusMap st.urlStatusTargetURLMap hpre
  have hemp : (pre ++ failed :: post).isEmpty = false := by
    cases pre <;> rfl
  refine ⟨[PromoteEffect.updatePullRequestStatus st.pullRequestInfo.pullRequest.url] ++
    ((if st.logHasMergeSha then [] else [PromoteEffect.completePullRequestStep sha]) ++
      [PromoteEffect.startUpdateStep, PromoteEffect.listCommitStatus pr.owner pr.repo sha]),
    ?_, ?_⟩
  · simp only [runPoll, pollStep, hr, hm, hsha, hls, hemp, hproc]
    simp
  · cases h : st.logHasMergeSha <;> simp [h]

/-- C4 counterexample: the claim states the terminal error references the
failed context *and the sha*.  On a concrete merged pull request with
merge sha `abc123def` and a failed context, the poller's error is built
from the context's state, target URL and description only: the sha does
not occur in the error or its formatted message (it is only logged). -/
theorem poll_failed_status_error_lacks_sha :
    runPoll false 100 3600 (initPollState ⟨mergedSamplePR⟩) [failedStatusObs] =
        (some (.error (.commitStatusFailed "failure" "https://ci.example/build/7"
          "Tests failed")),
         [.updatePullRequestStatus "https://bitbucket.example/pr/7",
          .completePullRequestStep "abc123def", .startUpdateStep,
          .listCommitStatus "own" "rep" "abc123def"]) ∧
      charListHasSub "abc123def".data
        (GoError.commitStatusFailed "failure" "https://ci.example/build/7"
          "Tests failed").message.data = false :=
  ⟨rfl, by decide⟩

/-- Witness for C4's amended theorem at a concrete input. -/
theorem poll_failed_status_terminal_witness :
    ∃ effs, runPoll false 100 3600 (initPollState ⟨mergedSamplePR⟩) [failedStatusObs] =
        (some (.error (.commitStatusFailed failingStatus.state failingStatus.targetURL
          failingStatus.description)), effs) ∧
      PromoteEffect.completeUpdateStep ∉ effs :=
  poll_failed_status_terminal false 100 3600 (initPollState ⟨mergedSamplePR⟩) failedStatusObs
    [] mergedSamplePR "abc123def" [passingStatus] [] failingStatus rfl rfl rfl rfl
    (by intro s hs; simp only [List.mem_singleton] at hs; subst hs; rfl) rfl

/- ### C7, C8: quiet iterations, the deadline, and rebase-on-conflict -/

theorem pollStep_quiet (noMergePullRequest : Bool) (endTime duration : Nat)
    (st : PollState) (o : PollObs) (pr : GitPullRequest)
    (hr : o.refresh = .ok pr) (hm : pr.merged ≠ some true) (hc : pr.closed = false)
    (hs : ∀ s, o.lastCommitStatus = .ok s → s ≠ "error" ∧ s ≠ "failure")
    (ht : o.now ≤ endTime) :
    ∃ st' effs,
      pollStep noMergePullRequest endTime duration st o = (.next st', effs) ∧
      st'.pullRequestInfo = (if pr.mergeable = some false then o.rebaseInfo else ⟨pr⟩) ∧
      st'.urlStatusMap = st.urlStatusMap ∧
      st'.urlStatusTargetURLMap = st.urlStatusTargetURLMap ∧
      (pr.mergeable = some false → PromoteEffect.promoteViaPullRequest ∈ effs) := by
  have hlate : ¬ o.now > endTime := by omega
  simp only [pollStep, hr, gitStatusSuccess]
  rw [if_neg hm, if_neg (by simp [hc] : ¬pr.closed = true)]
  by_cases hmg : pr.mergeable = some false
  · rcases hls : o.lastCommitStatus with msg | status <;> simp only []
    · simp only [hmg, if_pos rfl, if_neg hlate]
      exact ⟨_, _, rfl, by simp [hmg], rfl, rfl, by simp⟩
    · have hst := hs status hls
      by_cases h1 : status = "in-progress"
      · subst h1
        simp only [hmg, if_neg hlate]
        exact ⟨_, _, rfl, by simp [hmg], rfl, rfl, by simp⟩
      · by_cases h2 : status = "success"
        · subst h2
          cases noMergePullRequest
          · rcases hme : o.mergeError with _ | msg <;>
              · simp only [hme, hmg, if_neg hlate]
                exact ⟨_, _, rfl, by simp [hmg], rfl, rfl, by simp⟩
          · simp only [hmg, if_neg hlate]
            exact ⟨_, _, rfl, by simp [hmg], rfl, rfl, by simp⟩
        · have e1 : (status == "in-progress") = false := by simp [h1]
          have e2 : (status == "success") = false := by simp [h2]
          have e3 : (status == "error" || status == "failure") = false := by
            simp [hst.1, hst.2]
          simp only [e1, e2, e3, Bool.false_eq_true, if_false, hmg, if_neg hlate]
          exact ⟨_, _, rfl, by simp [hmg], rfl, rfl, by simp⟩
  · rcases hls : o.lastCommitStatus with msg | status <;> simp only []
    · simp only [if_neg hmg, if_neg hlate]
      exact ⟨_, _, rfl, by simp [hmg], rfl, rfl, by simp [hmg]⟩
    · have hst := hs status hls
      by_cases h1 : status = "in-progress"
      · subst h1
        simp only [if_neg hmg, if_neg hlate]
        exact ⟨_, _, rfl, by simp [hmg], rfl, rfl, by simp [hmg]⟩
      · by_cases h2 : status = "success"
        · subst h2
          cases noMergePullRequest
          · rcases hme : o.mergeError with _ | msg <;>
              · simp only [hme, if_neg hmg, if_neg hlate]
                exact ⟨_, _, rfl, by simp [hmg], rfl, rfl, by simp [hmg]⟩
          · simp only [if_neg hmg, if_neg hlate]
            exact ⟨_, _, rfl, by simp [hmg], rfl, rfl, by simp [hmg]⟩
        · have e1 : (status == "in-progress") = false := by simp [h1]
          have e2 : (status == "success") = false := by simp [h2]
          have e3 : (status == "error" || status == "failure") = false := by
            simp [hst.1, hst.2]
          simp only [e1, e2, e3, Bool.false_eq_true, if_false, if_neg hmg, if_neg hlate]
          exact ⟨_, _, rfl, by simp [hmg], rfl, rfl, by simp [hmg]⟩

theorem pollStep_quiet_late (noMergePullRequest : Bool) (endTime duration : Nat)
    (st : PollState) (o : PollObs) (pr : GitPullRequest)
    (hr : o.refresh = .ok pr) (hm : pr.merged ≠ some true) (hc : pr.closed = false)
    (hs : ∀ s, o.lastCommitStatus = .ok s → s ≠ "error" ∧ s ≠ "failure")
    (ht : endTime < o.now) :
    ∃ effs, pollStep noMergePullRequest endTime duration st o =
      (.done (.error (.timedOut pr.url duration)), effs) := by
  simp only [pollStep, hr, gitStatusSuccess]
  rw [if_neg hm, if_neg (by simp [hc] : ¬pr.closed = true)]
  rcases hls : o.lastCommitStatus with msg | status <;> simp only []
  · simp only [if_pos ht]
    exact ⟨_, rfl⟩
  · have hst := hs status hls
    by_cases h1 : status = "in-progress"
    · subst h1
      simp only [if_pos ht]
      exact ⟨_, rfl⟩
    · by_cases h2 : status = "success"
      · subst h2
        cases noMergePullRequest
        · rcases hme : o.mergeError with _ | msg <;>
            · simp only [hme, if_pos ht]
              exact ⟨_, rfl⟩
        · simp only [if_pos ht]
          exact ⟨_, rfl⟩
      · have e1 : (status == "in-progress") = false := by simp [h1]
        have e2 : (status == "success") = false := by simp [h2]
        have e3 : (status == "error" || status == "failure") = false := by
          simp [hst.1, hst.2]
        simp only [e1, e2, e3, Bool.false_eq_true, if_false, if_pos ht]
        exact ⟨_, rfl⟩

theorem pollStep_first_effect (noMergePullRequest : Bool) (endTime duration : Nat)
    (st : PollState) (o : PollObs) :
    (pollStep noMergePullRequest endTime duration st o).2.head? =
      some (.updatePullRequestStatus st.pullRequestInfo.pullRequest.url) := by
  rcases hr : o.refresh with msg | pr
  · simp [pollStep, hr]
  · simp only [pollStep, hr]
    split
    · simp
    · split <;> simp


theorem runPoll_quiet_timeout (noMergePullRequest : Bool) (endTime duration : Nat)
    (pre : List PollObs) :
    ∀ st, (∀ ob ∈ pre, (∃ p, quietRefresh p ob) ∧ ob.now ≤ endTime) →
    ∀ (o : PollObs) (post : List PollObs) (pr : GitPullRequest),
      quietRefresh pr o → endTime < o.now →
      (runPoll noMergePullRequest endTime duration st (pre ++ o :: post)).1 =
          some (.error (.timedOut pr.url duration)) ∧
        runPoll noMergePullRequest endTime duration st (pre ++ o :: post) =
          runPoll noMergePullRequest endTime duration st (pre ++ [o]) := by
  induction pre with
  | nil =>
    intro st _ o post pr hq hlate
    obtain ⟨hr, hm, hc, hs⟩ := hq
    obtain ⟨effs, heq⟩ :=
      pollStep_quiet_late noMergePullRequest endTime duration st o pr hr hm hc hs hlate
    constructor
    · simp [runPoll, heq]
    · simp [runPoll, heq]
  | cons ob pre ih =>
    intro st hpre o post pr hq hlate
    obtain ⟨⟨p, hp⟩, hnow⟩ := hpre ob (by simp)
    obtain ⟨hr, hm, hc, hs⟩ := hp
    obtain ⟨st', effs, heq, -, -, -, -⟩ :=
      pollStep_quiet noMergePullRequest endTime duration st ob p hr hm hc hs hnow
    have hpre' : ∀ x ∈ pre, (∃ q, quietRefresh q x) ∧ x.now ≤ endTime :=
      fun x hx => hpre x (by simp [hx])
    have hrec := ih st' hpre' o post pr hq hlate
    constructor
    · simp only [List.cons_append, runPoll, heq, List.append_eq]
      simpa using hrec.1
    · simp only [List.cons_append, runPoll, heq, List.append_eq]
      rw [hrec.2]

/-- C7: the poll deadline is computed exactly once at entry as
`now + configured-timeout` (the conclusion's deadline is literally
`now0 + timeout`); when that deadline elapses during a run in which the
pull request is never merged (every iteration quiet), the poller returns
a timeout error naming the pull-request URL and the configured duration,
and the run is identical to the run truncated at the deadline-crossing
iteration: no merge-status work is attempted afterward. -/
theorem WaitForPromotion_deadline_timeout (timeout pollTime : Nat) (noMergePullRequest : Bool)
    (now0 : Nat) (releaseInfo : ReleaseInfo) (info : ReleasePullRequestInfo)
    (hinfo : releaseInfo.pullRequestInfo = some info)
    (pre : List PollObs) (o : PollObs) (post : List PollObs) (pr : GitPullRequest)
    (hpre : ∀ ob ∈ pre, (∃ p, quietRefresh p ob) ∧ ob.now ≤ now0 + timeout)
    (hq : quietRefresh pr o) (hlate : now0 + timeout < o.now) :
    (WaitForPromotion (some timeout) (some pollTime) noMergePullRequest now0 releaseInfo
        (pre ++ o :: post)).1 = some (.error (.timedOut pr.url timeout)) ∧
      WaitForPromotion (some timeout) (some pollTime) noMergePullRequest now0 releaseInfo
          (pre ++ o :: post) =
        WaitForPromotion (some timeout) (some pollTime) noMergePullRequest now0 releaseInfo
          (pre ++ [o]) := by
  have h := runPoll_quiet_timeout noMergePullRequest (now0 + timeout) timeout pre
    (initPollState info) hpre o post pr hq hlate
  constructor
  · simp only [WaitForPromotion, hinfo, h.1]
  · simp only [WaitForPromotion, hinfo, h.2]

/-- C8: when the provider reports the tracked pull request as not
mergeable mid-poll, the promoter step is re-run (`promoteViaPullRequest`
appears among the iteration's effects) and the `PullRequestInfo` it
produces replaces the tracked one; the per-URL deduplication maps are
unchanged; every subsequent iteration's first provider call targets the
new handle's URL; and the original deadline still bounds the loop after
the rebase. -/
theorem poll_rebase_replaces_tracked_pr (noMergePullRequest : Bool) (endTime duration : Nat)
    (st : PollState) (o : PollObs) (pr : GitPullRequest)
    (hq : quietRefresh pr o) (hmg : pr.mergeable = some false) (ht : o.now ≤ endTime) :
    ∃ st' effs,
      pollStep noMergePullRequest endTime duration st o = (.next st', effs) ∧
      st'.pullRequestInfo = o.rebaseInfo ∧
      st'.urlStatusMap = st.urlStatusMap ∧
      st'.urlStatusTargetURLMap = st.urlStatusTargetURLMap ∧
      PromoteEffect.promoteViaPullRequest ∈ effs ∧
      (∀ o2, (pollStep noMergePullRequest endTime duration st' o2).2.head? =
        some (.updatePullRequestStatus o.rebaseInfo.pullRequest.url)) ∧
      (∀ o2 pr2, quietRefresh pr2 o2 → endTime < o2.now →
        ∃ effs2, pollStep noMergePullRequest endTime duration st' o2 =
          (.done (.error (.timedOut pr2.url duration)), effs2)) := by
  obtain ⟨hr, hm, hc, hs⟩ := hq
  obtain ⟨st', effs, heq, hi, hmap, hmapT, hmem⟩ :=
    pollStep_quiet noMergePullRequest endTime duration st o pr hr hm hc hs ht
  rw [if_pos hmg] at hi
  refine ⟨st', effs, heq, hi, hmap, hmapT, hmem hmg, ?_, ?_⟩
  · intro o2
    rw [pollStep_first_effect, hi]
  · intro o2 pr2 hq2 hlate2
    obtain ⟨hr2, hm2, hc2, hs2⟩ := hq2
    exact pollStep_quiet_late noMergePullRequest endTime duration st' o2 pr2 hr2 hm2 hc2 hs2 hlate2

/-- Witness for C7 at a concrete input: one quiet iteration inside the
deadline, then one past it. -/
theorem WaitForPromotion_deadline_timeout_witness :
    (WaitForPromotion (some 3600) (some 20) false 0 sampleReleaseInfo
        ([sampleQuietObs] ++ lateQuietObs :: [sampleQuietObs])).1 =
        some (.error (.timedOut samplePR.url 3600)) ∧
      WaitForPromotion (some 3600) (some 20) false 0 sampleReleaseInfo
          ([sampleQuietObs] ++ lateQuietObs :: [sampleQuietObs]) =
        WaitForPromotion (some 3600) (some 20) false 0 sampleReleaseInfo
          ([sampleQuietObs] ++ [lateQuietObs]) :=
  WaitForPromotion_deadline_timeout 3600 20 false 0 sampleReleaseInfo ⟨samplePR⟩ rfl
    [sampleQuietObs] lateQuietObs [sampleQuietObs] samplePR
    (by
      intro ob hob
      rw [List.mem_singleton] at hob
      subst hob
      exact ⟨⟨samplePR, rfl, by decide, rfl,
        fun s hs => by cases hs; exact ⟨by decide, by decide⟩⟩, by decide⟩)
    ⟨rfl, by decide, rfl, fun s hs => by cases hs; exact ⟨by decide, by decide⟩⟩
    (by decide)

/-- Witness for C8 at a concrete input: a conflict observed from the
initial state. -/
theorem poll_rebase_replaces_tracked_pr_witness :
    ∃ st' effs,
      pollStep false 100 3600 (initPollState ⟨samplePR⟩) conflictObs = (.next st', effs) ∧
      st'.pullRequestInfo = conflictObs.rebaseInfo ∧
      st'.urlStatusMap = (initPollState ⟨samplePR⟩).urlStatusMap ∧
      st'.urlStatusTargetURLMap = (initPollState ⟨samplePR⟩).urlStatusTargetURLMap ∧
      PromoteEffect.promoteViaPullRequest ∈ effs ∧
      (∀ o2, (pollStep false 100 3600 st' o2).2.head? =
        some (.updatePullRequestStatus conflictObs.rebaseInfo.pullRequest.url)) ∧
      (∀ o2 pr2, quietRefresh pr2 o2 → 100 < o2.now →
        ∃ effs2, pollStep false 100 3600 st' o2 =
          (.done (.error (.timedOut pr2.url 3600)), effs2)) :=
  poll_rebase_replaces_tracked_pr false 100 3600 (initPollState ⟨samplePR⟩) conflictObs
    conflictPR
    ⟨rfl, by decide, rfl, fun s hs => by cases hs; exact ⟨by decide, by decide⟩⟩
    rfl (by decide)

/- ### C3: the all-automatic sweep -/

theorem envLE_total (a b : Environment) : envLE a b ∨ envLE b a := by
  unfold envLE
  rcases lt_trichotomy a.order b.order with h | h | h
  · exact Or.inl (Or.inl h)
  · rcases le_total a.name b.name with h2 | h2
    · exact Or.inl (Or.inr ⟨h, h2⟩)
    · exact Or.inr (Or.inr ⟨h.symm, h2⟩)
  · exact Or.inr (Or.inl h)

theorem envLE_trans (a b c : Environment) (h1 : envLE a b) (h2 : envLE b c) : envLE a c := by
  rcases h1 with h1 | ⟨h1, h1n⟩ <;> rcases h2 with h2 | ⟨h2, h2n⟩
  · exact Or.inl (h1.trans h2)
  · exact Or.inl (by rw [← h2]; exact h1)
  · exact Or.inl (by rw [h1]; exact h2)
  · exact Or.inr ⟨h1.trans h2, h1n.trans h2n⟩

theorem insertEnv_perm (x : Environment) (l : List Environment) :
    List.Perm (insertEnv x l) (x :: l) := by
  induction l with
  | nil => exact List.Perm.refl _
  | cons y ys ih =>
    rw [insertEnv]
    split
    · exact List.Perm.refl _
    · exact (ih.cons y).trans (List.Perm.swap x y ys)

theorem sortEnvironments_perm (l : List Environment) :
    List.Perm (sortEnvironments l) l := by
  induction l with
  | nil => exact List.Perm.refl _
  | cons x xs ih => exact (insertEnv_perm x (sortEnvironments xs)).trans (ih.cons x)

theorem insertEnv_sorted (x : Environment) (l : List Environment)
    (hl : l.Pairwise envLE) : (insertEnv x l).Pairwise envLE := by
  induction l with
  | nil => simp [insertEnv]
  | cons y ys ih =>
    rw [insertEnv]
    rw [List.pairwise_cons] at hl
    split
    next h =>
      rw [List.pairwise_cons]
      refine ⟨?_, List.pairwise_cons.mpr hl⟩
      intro z hz
      rcases List.mem_cons.mp hz with rfl | hz'
      · exact h
      · exact envLE_trans x y z h (hl.1 z hz')
    next h =>
      have hy : envLE y x := (envLE_total x y).resolve_left h
      rw [List.pairwise_cons]
      constructor
      · intro z hz
        rcases List.mem_cons.mp ((insertEnv_perm x ys).mem_iff.mp hz) with rfl | hz'
        · exact hy
        · exact hl.1 z hz'
      · exact ih hl.2

theorem sortEnvironments_sorted (l : List Environment) :
    (sortEnvironments l).Pairwise envLE := by
  induction l with
  | nil => simp [sortEnvironments]
  | cons x xs ih => exact insertEnv_sorted x (sortEnvironments xs) ih

theorem promoteAllAutomaticLoop_all_ok (promoteResult waitResult : Environment → Option JxError) :
    ∀ l : List Environment,
      (∀ e ∈ l.filter autoPermanent,
        e.nameSpace ≠ "" ∧ promoteResult e = none ∧ waitResult e = none) →
      promoteAllAutomaticLoop promoteResult waitResult l =
        (none, (l.filter autoPermanent).map Environment.name) := by
  intro l
  induction l with
  | nil => intro _; rfl
  | cons e rest ih =>
    intro h
    by_cases hp : autoPermanent e
    · have he := h e (by simp [List.mem_filter, hp])
      have hns : (e.nameSpace == "") = false := by simp [he.1]
      rw [promoteAllAutomaticLoop, List.filter_cons_of_pos hp]
      simp only [hp, if_true, hns, Bool.false_eq_true, if_false, he.2.1, he.2.2]
      rw [ih (fun x hx => h x (by rw [List.filter_cons_of_pos hp]; exact List.mem_cons_of_mem e hx))]
      simp
    · have hpf : autoPermanent e = false := by simpa using hp
      rw [promoteAllAutomaticLoop, List.filter_cons_of_neg (by simp [hpf])]
      simp only [hpf, Bool.false_eq_true, if_false]
      exact ih (fun x hx => h x (by rw [List.filter_cons_of_neg (by simp [hpf])]; exact hx))

theorem promoteAllAutomaticLoop_first_error
    (promoteResult waitResult : Environment → Option JxError) :
    ∀ (l pre : List Environment) (bad : Environment) (post : List Environment) (err : JxError),
      l.filter autoPermanent = pre ++ bad :: post →
      (∀ e ∈ pre, e.nameSpace ≠ "" ∧ promoteResult e = none ∧ waitResult e = none) →
      bad.nameSpace ≠ "" → promoteResult bad = some err →
      promoteAllAutomaticLoop promoteResult waitResult l =
        (some err, pre.map Environment.name ++ [bad.name]) := by
  intro l
  induction l with
  | nil =>
    intro pre bad post err hf
    rw [List.filter_nil] at hf
    exact absurd hf.symm (List.append_ne_nil_of_right_ne_nil pre (by simp))
  | cons e rest ih =>
    intro pre bad post err hf hpre hbns hberr
    by_cases hp : autoPermanent e
    · rw [List.filter_cons_of_pos hp] at hf
      cases pre with
      | nil =>
        rw [List.nil_append] at hf
        obtain ⟨rfl, -⟩ := List.cons_eq_cons.mp hf
        have hns : (e.nameSpace == "") = false := by simp [hbns]
        rw [promoteAllAutomaticLoop]
        simp only [hp, if_true, hns, Bool.false_eq_true, if_false, hberr]
        simp
      | cons q pre' =>
        rw [List.cons_append] at hf
        obtain ⟨rfl, hf'⟩ := List.cons_eq_cons.mp hf
        have hq := hpre e (by simp)
        have hns : (e.nameSpace == "") = false := by simp [hq.1]
        rw [promoteAllAutomaticLoop]
        simp only [hp, if_true, hns, Bool.false_eq_true, if_false, hq.2.1, hq.2.2]
        rw [ih pre' bad post err hf' (fun x hx => hpre x (by simp [hx])) hbns hberr]
        simp
    · have hpf : autoPermanent e = false := by simpa using hp
      rw [List.filter_cons_of_neg (by simp [hpf])] at hf
      rw [promoteAllAutomaticLoop]
      simp only [hpf, Bool.false_eq_true, if_false]
      exact ih pre bad post err hf hpre hbns hberr

/-- C3: `PromoteAllAutomatic` visits exactly the environments whose
strategy is `Automatic` and kind is `Permanent`, sequentially in
ascending order of the ordering attribute (the visited list is the
order-sorted filter, a permutation of the filtered input, pairwise
ascending in `order`); when all those promotions succeed it returns nil
having promoted them all, and the first promotion returning an error
stops the sweep: that error is returned and no subsequent environment is
promoted.  Environments are assumed to carry a namespace (an empty
namespace aborts the sweep with its own error before promoting). -/
theorem PromoteAllAutomatic_spec (promoteResult waitResult : Environment → Option JxError)
    (envs : List Environment) (hne : envs ≠ [])
    (hns : ∀ e ∈ envs, e.nameSpace ≠ "") :
    ((sortEnvironments envs).filter autoPermanent).Pairwise (fun a b => a.order ≤ b.order) ∧
    List.Perm ((sortEnvironments envs).filter autoPermanent) (envs.filter autoPermanent) ∧
    ((∀ e ∈ (sortEnvironments envs).filter autoPermanent,
        promoteResult e = none ∧ waitResult e = none) →
      PromoteAllAutomatic promoteResult waitResult envs =
        (none, ((sortEnvironments envs).filter autoPermanent).map Environment.name)) ∧
    (∀ (pre : List Environment) (bad : Environment) (post : List Environment) (err : JxError),
      (sortEnvironments envs).filter autoPermanent = pre ++ bad :: post →
      (∀ e ∈ pre, promoteResult e = none ∧ waitResult e = none) →
      promoteResult bad = some err →
      PromoteAllAutomatic promoteResult waitResult envs =
        (some err, pre.map Environment.name ++ [bad.name])) := by
  have hnsSort : ∀ e ∈ (sortEnvironments envs).filter autoPermanent, e.nameSpace ≠ "" :=
    fun e he => hns e ((sortEnvironments_perm envs).mem_iff.mp (List.mem_of_mem_filter he))
  have hempty : envs.isEmpty = false := by
    cases envs with
    | nil => exact absurd rfl hne
    | cons a l => rfl
  refine ⟨?_, ?_, ?_, ?_⟩
  · exact ((sortEnvironments_sorted envs).sublist (List.filter_sublist _)).imp
      (fun h => by rcases h with h | ⟨h, -⟩ <;> [exact le_of_lt h; exact le_of_eq h])
  · exact (sortEnvironments_perm envs).filter autoPermanent
  · intro hall
    rw [PromoteAllAutomatic]
    simp only [hempty, Bool.false_eq_true, if_false]
    exact promoteAllAutomaticLoop_all_ok promoteResult waitResult (sortEnvironments envs)
      (fun e he => ⟨hnsSort e he, (hall e he).1, (hall e he).2⟩)
  · intro pre bad post err hf hpre hberr
    rw [PromoteAllAutomatic]
    simp only [hempty, Bool.false_eq_true, if_false]
    exact promoteAllAutomaticLoop_first_error promoteResult waitResult (sortEnvironments envs)
      pre bad post err hf
      (fun e he => ⟨hnsSort e (by rw [hf]; exact List.mem_append_left _ he),
        (hpre e he).1, (hpre e he).2⟩)
      (hnsSort bad (by rw [hf]; exact List.mem_append_right _ (List.mem_cons_self bad post)))
      hberr

theorem charListLt_nil_right : ∀ l : List Char, charListLt l [] = false
  | [] => rfl
  | _ :: _ => rfl

theorem charListLt_trans : ∀ a b c : List Char,
    charListLt a b = true → charListLt b c = true → charListLt a c = true := by
  intro a
  induction a with
  | nil =>
    intro b c _ hbc
    cases b with
    | nil => exact hbc
    | cons y ys =>
      cases c with
      | nil => rw [charListLt_nil_right] at hbc; exact absurd hbc (by simp)
      | cons z zs => rfl
  | cons x xs ih =>
    intro b c hab hbc
    cases b with
    | nil => rw [charListLt_nil_right] at hab; exact absurd hab (by simp)
    | cons y ys =>
      cases c with
      | nil => rw [charListLt_nil_right] at hbc; exact absurd hbc (by simp)
      | cons z zs =>
        simp only [charListLt, Bool.or_eq_true, Bool.and_eq_true, decide_eq_true_eq,
          beq_iff_eq] at hab hbc ⊢
        rcases hab with hab | ⟨hab1, hab2⟩ <;> rcases hbc with hbc | ⟨hbc1, hbc2⟩
        · exact Or.inl (by omega)
        · exact Or.inl (by omega)
        · exact Or.inl (by omega)
        · exact Or.inr ⟨by omega, ih ys zs hab2 hbc2⟩

theorem charListLt_false_trans : ∀ a b c : List Char,
    charListLt a b = false → charListLt b c = false → charListLt a c = false := by
  intro a
  induction a with
  | nil =>
    intro b c hab hbc
    cases c with
    | nil => exact charListLt_nil_right []
    | cons z zs =>
      cases b with
      | nil => exact absurd hbc (by simp [charListLt])
      | cons y ys => exact absurd hab (by simp [charListLt])
  | cons x xs ih =>
    intro b c hab hbc
    cases c with
    | nil => exact charListLt_nil_right _
    | cons z zs =>
      cases b with
      | nil => exact absurd hbc (by simp [charListLt])
      | cons y ys =>
        simp only [charListLt, Bool.or_eq_false_iff, Bool.and_eq_false_iff,
          decide_eq_false_iff_not, beq_eq_false_iff_ne] at hab hbc ⊢
        obtain ⟨hab1, hab2⟩ := hab
        obtain ⟨hbc1, hbc2⟩ := hbc
        refine ⟨by omega, ?_⟩
        rcases hab2 with h | h <;> rcases hbc2 with h2 | h2
        · exact Or.inl (by omega)
        · exact Or.inl (by omega)
        · exact Or.inl (by omega)
        · exact Or.inr (ih ys zs h h2)

theorem charListLt_irrefl : ∀ l : List Char, charListLt l l = false := by
  intro l
  induction l with
  | nil => rfl
  | cons c cs ih =>
    simp only [charListLt, ih, Bool.and_false, Bool.or_false]
    simp

theorem foldl_no_semver : ∀ versions : List String,
    (∀ v ∈ versions, semverParse v = none) →
    ∀ m0 : String, versions.foldl findLatestVersionStep (none, m0) =
      (none, versions.foldl lexMaxStep m0) := by
  intro versions
  induction versions with
  | nil => intro _ m0; rfl
  | cons v rest ih =>
    intro hall m0
    have hv : semverParse v = none := hall v (by simp)
    have hstep : findLatestVersionStep (none, m0) v = (none, lexMaxStep m0 v) := by
      simp only [findLatestVersionStep, hv, lexMaxStep]
      split <;> rfl
    simp only [List.foldl_cons, hstep]
    exact ih (fun x hx => hall x (by simp [hx])) (lexMaxStep m0 v)

theorem lexMax_fold_spec : ∀ (versions : List String) (m0 : String),
    (versions.foldl lexMaxStep m0 = m0 ∨ versions.foldl lexMaxStep m0 ∈ versions) ∧
    (∀ v ∈ versions, stringsCompareGt v (versions.foldl lexMaxStep m0) = false) ∧
    stringsCompareGt m0 (versions.foldl lexMaxStep m0) = false := by
  intro versions
  induction versions with
  | nil =>
    intro m0
    exact ⟨Or.inl rfl, by simp, charListLt_irrefl m0.data⟩
  | cons v rest ih =>
    intro m0
    obtain ⟨ha, hb, hc⟩ := ih (lexMaxStep m0 v)
    simp only [List.foldl_cons]
    refine ⟨?_, ?_, ?_⟩
    · rcases ha with ha | ha
      · rw [ha, lexMaxStep]
        split
        · exact Or.inr (List.mem_cons_self v rest)
        · exact Or.inl rfl
      · exact Or.inr (List.mem_cons_of_mem v ha)
    · intro w hw
      rcases List.mem_cons.mp hw with rfl | hw'
      · by_cases hcond : (m0 == "" || stringsCompareGt w m0) = true
        · have h := hc
          rw [lexMaxStep, if_pos hcond] at h ⊢
          exact h
        · have hcf := Bool.not_eq_true _ |>.mp hcond
          have h2 : stringsCompareGt w m0 = false := (Bool.or_eq_false_iff.mp hcf).2
          have h := hc
          rw [lexMaxStep, if_neg hcond] at h ⊢
          exact charListLt_false_trans _ _ _ h h2
      · exact hb w hw'
    · by_cases hcond : (m0 == "" || stringsCompareGt v m0) = true
      · have h := hc
        rw [lexMaxStep, if_pos hcond] at h ⊢
        rcases Bool.or_eq_true_iff.mp hcond with h1 | h1
        · have : m0 = "" := by simpa using h1
          subst this
          exact charListLt_nil_right _
        · cases hgoal : charListLt (rest.foldl lexMaxStep v).data m0.data with
          | false => exact hgoal
          | true =>
            have h1' : charListLt m0.data v.data = true := h1
            have h' : charListLt (rest.foldl lexMaxStep v).data v.data = false := h
            exact absurd (charListLt_trans _ _ _ hgoal h1') (by simp [h'])
      · have h := hc
        rw [lexMaxStep, if_neg hcond] at h ⊢
        exact h

/-- C9: when no version string parses as a semantic version (and at least
one is non-empty), `findLatestVersion` returns the lexicographically
greatest raw string among them (a member no other member compares
greater than), and it fails with the not-found error when the repository
returns no versions at all. -/
theorem findLatestVersion_no_semver (app : String) (versions : List String)
    (hall : ∀ v ∈ versions, semverParse v = none)
    (hsome : ∃ v ∈ versions, v ≠ "") :
    (∃ m, findLatestVersion app versions = .ok m ∧ m ∈ versions ∧
      ∀ v ∈ versions, stringsCompareGt v m = false) ∧
    findLatestVersion app [] =
      .error ("Could not find a version of app " ++ app ++ " in the helm repositories") := by
  obtain ⟨ha, hb, -⟩ := lexMax_fold_spec versions ""
  set r := versions.foldl lexMaxStep "" with hrdef
  have hrne : r ≠ "" := by
    intro hr
    obtain ⟨v, hv, hvne⟩ := hsome
    have hvr := hb v hv
    rw [hr] at hvr
    have hd : v.data ≠ [] := by
      intro hnil
      apply hvne
      cases v with
      | mk d =>
        have hd' : d = [] := hnil
        subst hd'
        rfl
    cases hvd : v.data with
    | nil => exact hd hvd
    | cons c cs =>
      rw [show stringsCompareGt v "" = charListLt [] v.data from rfl, hvd] at hvr
      simp [charListLt] at hvr
  have hmem : r ∈ versions := by
    rcases ha with h | h
    · exact absurd h hrne
    · exact h
  constructor
  · refine ⟨r, ?_, hmem, hb⟩
    have hbeq : (r == "") = false := by simp [hrne]
    simp only [findLatestVersion, foldl_no_semver versions hall "", hbeq,
      Bool.false_eq_true, if_false]
  · rfl

/-- Witness for C3 at a concrete input: of the three mixed environments
only `staging` is both automatic and permanent, so the all-success sweep
promotes exactly it. -/
theorem PromoteAllAutomatic_spec_witness :
    PromoteAllAutomatic (fun _ => none) (fun _ => none) sweepEnvs = (none, ["staging"]) := by
  have h := PromoteAllAutomatic_spec (fun _ => none) (fun _ => none) sweepEnvs
    (by decide) (by decide)
  rw [h.2.2.1 (fun e he => ⟨rfl, rfl⟩)]
  rfl

/-- Witness for C9 at a concrete input. -/
theorem findLatestVersion_no_semver_witness :
    (∃ m, findLatestVersion "myapp" ["not-a-version", "also-bad"] = .ok m ∧
      m ∈ ["not-a-version", "also-bad"] ∧
      ∀ v ∈ ["not-a-version", "also-bad"], stringsCompareGt v m = false) ∧
    findLatestVersion "myapp" [] =
      .error ("Could not find a version of app " ++ "myapp" ++ " in the helm repositories") :=
  findLatestVersion_no_semver "myapp" ["not-a-version", "also-bad"]
    (by decide) ⟨"not-a-version", by decide, by decide⟩

theorem mapGet_absent (m : List (String × String)) (u : String)
    (h : ∀ p ∈ m, p.1 ≠ u) : mapGet m u = "" := by
  rw [mapGet, List.find?_eq_none.mpr]
  intro p hp
  simp [h p hp]

theorem mapSet_absent (m : List (String × String)) (u v : String)
    (h : ∀ p ∈ m, p.1 ≠ u) : mapSet m u v = m ++ [(u, v)] := by
  rw [mapSet, if_neg]
  simp only [List.any_eq_true, not_exists]
  intro p
  simp only [not_and]
  intro hp
  simp [h p hp]

theorem mapGet_of_mem_nodup (m : List (String × String)) (p : String × String)
    (hnodup : (m.map Prod.fst).Nodup) (hp : p ∈ m) : mapGet m p.1 = p.2 := by
  induction m with
  | nil => cases hp
  | cons q rest ih =>
    rw [List.map_cons, List.nodup_cons] at hnodup
    rcases List.mem_cons.mp hp with rfl | hp'
    · simp [mapGet]
    · have hq : (q.1 == p.1) = false := by
        have hne : q.1 ≠ p.1 := fun he => hnodup.1 (he ▸ List.mem_map_of_mem Prod.fst hp')
        simp [hne]
      simp only [mapGet, List.find?, hq]
      exact ih hnodup.2 hp'

theorem mem_mapSet (m : List (String × String)) (k v : String) (p : String × String)
    (hp : p ∈ mapSet m k v) : p = (k, v) ∨ (p ∈ m ∧ p.1 ≠ k) := by
  rw [mapSet] at hp
  split at hp
  · obtain ⟨q, hq, hqe⟩ := List.mem_map.mp hp
    by_cases hk : (q.1 == k) = true
    · rw [if_pos hk] at hqe
      exact Or.inl hqe.symm
    · rw [if_neg hk] at hqe
      subst hqe
      exact Or.inr ⟨hq, by simpa using hk⟩
  · next hany =>
    rcases List.mem_append.mp hp with h | h
    · refine Or.inr ⟨h, ?_⟩
      intro he
      exact hany (List.any_eq_true.mpr ⟨p, h, by simp [he]⟩)
    · exact Or.inl (by simpa using h)

theorem mapSet_keys_nodup (m : List (String × String)) (k v : String)
    (hnodup : (m.map Prod.fst).Nodup) : ((mapSet m k v).map Prod.fst).Nodup := by
  rw [mapSet]
  split
  · rw [List.map_map]
    have hkeys : m.map (Prod.fst ∘ fun p => if (p.1 == k) = true then (k, v) else p) =
        m.map Prod.fst := by
      apply List.map_congr_left
      intro p hp
      by_cases hk : (p.1 == k) = true
      · simp only [Function.comp_apply, if_pos hk]
        exact (by simpa using hk : p.1 = k).symm
      · simp only [Function.comp_apply]
        rw [if_neg hk]
    rw [hkeys]
    exact hnodup
  · next hany =>
    rw [List.map_append]
    simp only [List.map_cons, List.map_nil]
    rw [List.nodup_append]
    refine ⟨hnodup, List.nodup_singleton k, ?_⟩
    intro a ha hb
    simp only [List.mem_singleton] at hb
    subst hb
    obtain ⟨p, hp, hpe⟩ := List.mem_map.mp ha
    exact hany (List.any_eq_true.mpr ⟨p, hp, by simp [hpe]⟩)

theorem processStatuses_fresh : ∀ (sts : List GitStatus) (m mt : List (String × String)),
    (∀ st ∈ sts, st.isFailed = false) →
    (∀ st ∈ sts, st.state ≠ "") →
    (sts.map GitStatus.url).Nodup →
    (∀ st ∈ sts, ∀ p ∈ m, p.1 ≠ st.url) →
    (∀ st ∈ sts, ∀ p ∈ mt, p.1 ≠ st.url) →
    processStatuses m mt sts =
      .ok (m ++ sts.map (fun st => (st.url, st.state)),
           mt ++ sts.map (fun st => (st.url, st.targetURL))) := by
  intro sts
  induction sts with
  | nil => intro m mt _ _ _ _ _; simp [processStatuses]
  | cons st rest ih =>
    intro m mt hnf hst hnodup hfresh hfreshT
    have hf : st.isFailed = false := hnf st (by simp)
    have hcur : mapGet m st.url = "" := mapGet_absent m st.url (fun p hp he =>
      hfresh st (by simp) p hp he)
    have hsne : (("" : String) == st.state) = false := by
      have := hst st (by simp)
      simp [Ne.symm this]
    rw [List.map_cons, List.nodup_cons] at hnodup
    simp only [processStatuses, hf, Bool.false_eq_true, if_false, hcur]
    rw [if_pos (by simp), if_pos (by simp [hsne])]
    rw [mapSet_absent m st.url st.state (fun p hp => hfresh st (by simp) p hp)]
    rw [mapSet_absent mt st.url st.targetURL (fun p hp => hfreshT st (by simp) p hp)]
    have hfresh' : ∀ x ∈ rest, ∀ p ∈ m ++ [(st.url, st.state)], p.1 ≠ x.url := by
      intro x hx p hp
      rcases List.mem_append.mp hp with h | h
      · exact hfresh x (by simp [hx]) p h
      · simp only [List.mem_singleton] at h
        subst h
        intro he
        replace he : st.url = x.url := he
        exact hnodup.1 (he ▸ List.mem_map_of_mem GitStatus.url hx)
    have hfreshT' : ∀ x ∈ rest, ∀ p ∈ mt ++ [(st.url, st.targetURL)], p.1 ≠ x.url := by
      intro x hx p hp
      rcases List.mem_append.mp hp with h | h
      · exact hfreshT x (by simp [hx]) p h
      · simp only [List.mem_singleton] at h
        subst h
        intro he
        replace he : st.url = x.url := he
        exact hnodup.1 (he ▸ List.mem_map_of_mem GitStatus.url hx)
    rw [ih (m ++ [(st.url, st.state)]) (mt ++ [(st.url, st.targetURL)])
      (fun x hx => hnf x (by simp [hx])) (fun x hx => hst x (by simp [hx])) hnodup.2
      hfresh' hfreshT']
    simp

theorem processStatuses_stable : ∀ (sts : List GitStatus) (m mt : List (String × String)),
    (∀ st ∈ sts, st.isFailed = false) →
    (∀ st ∈ sts, mapGet m st.url = st.state) →
    processStatuses m mt sts = .ok (m, mt) := by
  intro sts
  induction sts with
  | nil => intro m mt _ _; simp [processStatuses]
  | cons st rest ih =>
    intro m mt hnf hget
    have hf : st.isFailed = false := hnf st (by simp)
    have hcur : mapGet m st.url = st.state := hget st (by simp)
    simp only [processStatuses, hf, Bool.false_eq_true, if_false, hcur]
    by_cases hsuc : (st.state == gitStatusSuccess) = true
    · have hs' : st.state = gitStatusSuccess := by simpa using hsuc
      rw [if_neg (by simp [hs', gitStatusSuccess])]
      exact ih m mt (fun x hx => hnf x (by simp [hx])) (fun x hx => hget x (by simp [hx]))
    · rw [if_pos (by simp [hsuc]), if_neg (by simp)]
      exact ih m mt (fun x hx => hnf x (by simp [hx])) (fun x hx => hget x (by simp [hx]))

theorem processStatuses_success_aux : ∀ (sts : List GitStatus) (m mt : List (String × String)),
    (m.map Prod.fst).Nodup →
    (∀ st ∈ sts, st.state = gitStatusSuccess) →
    ∃ m' mt', processStatuses m mt sts = .ok (m', mt') ∧
      (m'.map Prod.fst).Nodup ∧
      (∀ p ∈ m', p.2 = gitStatusSuccess ∨ (p ∈ m ∧ ∀ st ∈ sts, st.url ≠ p.1)) := by
  intro sts
  induction sts with
  | nil =>
    intro m mt hnodup _
    exact ⟨m, mt, rfl, hnodup, fun p hp => Or.inr ⟨hp, by simp⟩⟩
  | cons st rest ih =>
    intro m mt hnodup hsucc
    have hs : st.state = gitStatusSuccess := hsucc st (by simp)
    have hf : st.isFailed = false := by
      simp [GitStatus.isFailed, hs, gitStatusSuccess]
    simp only [processStatuses, hf, Bool.false_eq_true, if_false]
    by_cases hcur : mapGet m st.url = gitStatusSuccess
    · rw [if_neg (by simp [hcur, gitStatusSuccess])]
      obtain ⟨m', mt', heq, hnd', hprop⟩ := ih m mt hnodup (fun x hx => hsucc x (by simp [hx]))
      refine ⟨m', mt', heq, hnd', ?_⟩
      intro p hp
      rcases hprop p hp with h | ⟨hpm, hrest⟩
      · exact Or.inl h
      · by_cases hpu : st.url = p.1
        · left
          have := mapGet_of_mem_nodup m p hnodup hpm
          rw [← hpu] at this
          rw [← this, hcur]
        · right
          refine ⟨hpm, ?_⟩
          intro x hx
          rcases List.mem_cons.mp hx with rfl | hx'
          · exact hpu
          · exact hrest x hx'
    · have hcond : (mapGet m st.url == "" || !(mapGet m st.url == gitStatusSuccess)) = true := by
        simp [hcur]
      rw [if_pos hcond, if_pos (by simp [hs ▸ hcur])]
      obtain ⟨m', mt', heq, hnd', hprop⟩ := ih (mapSet m st.url st.state)
        (mapSet mt st.url st.targetURL) (mapSet_keys_nodup m st.url st.state hnodup)
        (fun x hx => hsucc x (by simp [hx]))
      refine ⟨m', mt', heq, hnd', ?_⟩
      intro p hp
      rcases hprop p hp with h | ⟨hpm, hrest⟩
      · exact Or.inl h
      · rcases mem_mapSet m st.url st.state p hpm with rfl | ⟨hpm', hpu⟩
        · exact Or.inl hs
        · right
          refine ⟨hpm', ?_⟩
          intro x hx
          rcases List.mem_cons.mp hx with rfl | hx'
          · exact fun he => hpu he.symm
          · exact hrest x hx'

theorem mapGet_pairs (sts : List GitStatus) (hnodup : (sts.map GitStatus.url).Nodup)
    (st : GitStatus) (hst : st ∈ sts) :
    mapGet (sts.map (fun s => (s.url, s.state))) st.url = st.state := by
  have hkeys : ((sts.map (fun s => (s.url, s.state))).map Prod.fst) =
      sts.map GitStatus.url := by
    rw [List.map_map]
    rfl
  exact mapGet_of_mem_nodup (sts.map (fun s => (s.url, s.state))) (st.url, st.state)
    (by rw [hkeys]; exact hnodup) (List.mem_map_of_mem _ hst)

/-- C5 (amended): for a pull request that is merged with a merge-commit
sha, after any number of iterations repeating the same pending status
reports followed by an iteration in which every distinct observed context
URL reports success, the poller returns no error and the ledger's
`PullRequestStep` and `UpdateStep` are each marked completed exactly once
— idempotent under the repeated identical reports — provided the final
best-effort `commentOnIssues` call does not fail (in the source its error
is returned and pre-empts the update step's completion). -/
theorem poll_merged_all_success (noMergePullRequest : Bool) (endTime duration : Nat)
    (info : ReleasePullRequestInfo) (prM : GitPullRequest) (sha : String)
    (sts : List GitStatus) (obsP obsS : PollObs) (n : Nat)
    (hm : prM.merged = some true) (hsha : prM.mergeCommitSHA = some sha)
    (hmg : ¬prM.mergeable = some false)
    (hnodup : (sts.map GitStatus.url).Nodup)
    (hnf : ∀ st ∈ sts, st.isFailed = false)
    (hne : sts ≠ [])
    (hstate : ∀ st ∈ sts, st.state ≠ "")
    (hnotall : ∃ st ∈ sts, st.state ≠ gitStatusSuccess)
    (hP : obsP.refresh = .ok prM) (hPl : obsP.listStatuses = .ok sts)
    (hPt : obsP.now ≤ endTime)
    (hS : obsS.refresh = .ok prM)
    (hSl : obsS.listStatuses =
      .ok (sts.map (fun st => { st with state := gitStatusSuccess })))
    (hSc : obsS.commentError = none) :
    ∃ effs,
      runPoll noMergePullRequest endTime duration (initPollState info)
          (List.replicate n obsP ++ [obsS]) = (some (.ok ()), effs) ∧
      effs.count (PromoteEffect.completePullRequestStep sha) = 1 ∧
      effs.count PromoteEffect.completeUpdateStep = 1 := by
  have hne' : sts.isEmpty = false := by
    cases sts with
    | nil => exact absurd rfl hne
    | cons a l => rfl
  have hneS : (sts.map (fun st => { st with state := gitStatusSuccess })).isEmpty = false := by
    cases sts with
    | nil => exact absurd rfl hne
    | cons a l => rfl
  have hSnodup : ((sts.map (fun st => { st with state := gitStatusSuccess })).map
      GitStatus.url).Nodup := by
    rw [List.map_map]
    exact hnodup
  have hfresh0 := processStatuses_fresh sts [] [] hnf hstate hnodup
    (by intro st _ p hp; cases hp) (by intro st _ p hp; cases hp)
  have hstable := processStatuses_stable sts (sts.map (fun st => (st.url, st.state)))
    (sts.map (fun st => (st.url, st.targetURL))) hnf
    (fun st hst => mapGet_pairs sts hnodup st hst)
  have hpairsKeys : ((sts.map (fun st => (st.url, st.state))).map Prod.fst).Nodup := by
    rw [List.map_map]
    exact hnodup
  have hnotall' : (sts.map (fun st => (st.url, st.state))).all
      (fun p => p.2 == gitStatusSuccess) = false := by
    obtain ⟨st, hst, hsne⟩ := hnotall
    apply List.all_eq_false.mpr
    exact ⟨(st.url, st.state), List.mem_map_of_mem _ hst, by simp [hsne]⟩
  -- the success pass over the accumulated maps
  obtain ⟨m', mt', heqS, hndS, hpropS⟩ := processStatuses_success_aux
    (sts.map (fun st => { st with state := gitStatusSuccess }))
    (sts.map (fun st => (st.url, st.state)))
    (sts.map (fun st => (st.url, st.targetURL))) hpairsKeys
    (by intro st hst; obtain ⟨s, hs, rfl⟩ := List.mem_map.mp hst; rfl)
  have hallS : ∀ p ∈ m', p.2 = gitStatusSuccess := by
    intro p hp
    rcases hpropS p hp with h | ⟨hpm, hnone⟩
    · exact h
    · obtain ⟨st, hst, rfl⟩ := List.mem_map.mp hpm
      exact absurd rfl (hnone { st with state := gitStatusSuccess }
        (List.mem_map_of_mem _ hst))
  have hsucceededS : m'.all (fun p => p.2 == gitStatusSuccess) = true := by
    apply List.all_eq_true.mpr
    intro p hp
    simp [hallS p hp]
  -- the success pass from empty maps (n = 0)
  have hfreshS := processStatuses_fresh
    (sts.map (fun st => { st with state := gitStatusSuccess })) [] []
    (by intro st hst; obtain ⟨s, hs, rfl⟩ := List.mem_map.mp hst
        simp [GitStatus.isFailed, gitStatusSuccess])
    (by intro st hst; obtain ⟨s, hs, rfl⟩ := List.mem_map.mp hst
        simp [gitStatusSuccess])
    hSnodup (by intro st _ p hp; cases hp) (by intro st _ p hp; cases hp)
  have hsucceededS0 : ((sts.map (fun st => { st with state := gitStatusSuccess })).map
      (fun st => (st.url, st.state))).all (fun p => p.2 == gitStatusSuccess) = true := by
    apply List.all_eq_true.mpr
    intro p hp
    obtain ⟨st, hst, rfl⟩ := List.mem_map.mp hp
    obtain ⟨s, hs, rfl⟩ := List.mem_map.mp hst
    simp
  set stPend : PollState := ⟨⟨prM⟩, false, false, true, false, false,
    sts.map (fun st => (st.url, st.state)), sts.map (fun st => (st.url, st.targetURL))⟩
    with hstPend
  have hstep1 : ∃ y, pollStep noMergePullRequest endTime duration (initPollState info) obsP =
      (.next stPend, [.updatePullRequestStatus info.pullRequest.url,
        .completePullRequestStep sha, .startUpdateStep,
        .listCommitStatus prM.owner prM.repo sha, .recordStatuses y]) := by
    simp only [pollStep, hP, hsha, hPl, initPollState]
    rw [if_pos hm]
    simp only [hne', Bool.false_eq_true, if_false, hfresh0, List.nil_append, hnotall']
    rw [if_neg hmg, if_neg hmg, if_neg (by omega : ¬ obsP.now > endTime)]
    exact ⟨_, rfl⟩
  have hstepP : ∃ y, pollStep noMergePullRequest endTime duration stPend obsP =
      (.next stPend, [.updatePullRequestStatus prM.url, .startUpdateStep,
        .listCommitStatus prM.owner prM.repo sha, .recordStatuses y]) := by
    simp only [pollStep, hP, hsha, hPl, hstPend]
    rw [if_pos hm]
    simp only [hne', Bool.false_eq_true, if_false, hstable, hnotall']
    rw [if_neg hmg, if_neg hmg, if_neg (by omega : ¬ obsP.now > endTime)]
    exact ⟨_, rfl⟩
  have hstepS : ∃ y, pollStep noMergePullRequest endTime duration stPend obsS =
      (.done (.ok ()), [.updatePullRequestStatus prM.url, .startUpdateStep,
        .listCommitStatus prM.owner prM.repo sha, .recordStatuses y,
        .commentOnIssues, .completeUpdateStep]) := by
    simp only [pollStep, hS, hsha, hSl, hstPend]
    rw [if_pos hm]
    simp only [hneS, Bool.false_eq_true, if_false, heqS, hsucceededS, if_true, hSc]
    exact ⟨_, rfl⟩
  have hstepS0 : ∃ y, pollStep noMergePullRequest endTime duration (initPollState info) obsS =
      (.done (.ok ()), [.updatePullRequestStatus info.pullRequest.url,
        .completePullRequestStep sha, .startUpdateStep,
        .listCommitStatus prM.owner prM.repo sha, .recordStatuses y,
        .commentOnIssues, .completeUpdateStep]) := by
    simp only [pollStep, hS, hsha, hSl, initPollState]
    rw [if_pos hm]
    simp only [hneS, Bool.false_eq_true, if_false, hfreshS, List.nil_append,
      hsucceededS0, if_true, hSc]
    exact ⟨_, rfl⟩
  have htail : ∀ k, ∃ effs,
      runPoll noMergePullRequest endTime duration stPend (List.replicate k obsP ++ [obsS]) =
        (some (.ok ()), effs) ∧
      effs.count (PromoteEffect.completePullRequestStep sha) = 0 ∧
      effs.count PromoteEffect.completeUpdateStep = 1 := by
    intro k
    induction k with
    | zero =>
      obtain ⟨y, hy⟩ := hstepS
      refine ⟨[.updatePullRequestStatus prM.url, .startUpdateStep,
        .listCommitStatus prM.owner prM.repo sha, .recordStatuses y,
        .commentOnIssues, .completeUpdateStep], ?_, ?_, ?_⟩
      · simp only [List.replicate, List.nil_append, runPoll, hy]
      · simp [List.count_cons]
      · simp [List.count_cons]
    | succ k ih =>
      obtain ⟨y, hy⟩ := hstepP
      obtain ⟨effs, heffs, hc1, hc2⟩ := ih
      refine ⟨[.updatePullRequestStatus prM.url, .startUpdateStep,
        .listCommitStatus prM.owner prM.repo sha, .recordStatuses y] ++ effs, ?_, ?_, ?_⟩
      · simp only [List.replicate_succ, List.cons_append, runPoll, hy, List.append_eq, heffs]
      · rw [List.count_append, hc1]
        simp [List.count_cons]
      · rw [List.count_append, hc2]
        simp [List.count_cons]
  cases n with
  | zero =>
    obtain ⟨y, hy⟩ := hstepS0
    refine ⟨[.updatePullRequestStatus info.pullRequest.url,
      .completePullRequestStep sha, .startUpdateStep,
      .listCommitStatus prM.owner prM.repo sha, .recordStatuses y,
      .commentOnIssues, .completeUpdateStep], ?_, ?_, ?_⟩
    · simp only [List.replicate, List.nil_append, runPoll, hy]
    · simp [List.count_cons]
    · simp [List.count_cons]
  | succ k =>
    obtain ⟨y, hy⟩ := hstep1
    obtain ⟨effs, heffs, hc1, hc2⟩ := htail k
    refine ⟨[.updatePullRequestStatus info.pullRequest.url,
      .completePullRequestStep sha, .startUpdateStep,
      .listCommitStatus prM.owner prM.repo sha, .recordStatuses y] ++ effs, ?_, ?_, ?_⟩
    · simp only [List.replicate_succ, List.cons_append, runPoll, hy, List.append_eq, heffs]
    · rw [List.count_append, hc1]
      simp [List.count_cons]
    · rw [List.count_append, hc2]
      simp [List.count_cons]

/-- C5 counterexample: the claim states the poller returns no error
whenever every distinct context URL reports success.  In the source the
success path runs `commentOnIssues` first and returns its error, skipping
`CompletePromotionUpdate`: on a concrete run with all contexts successful
but the comment step failing, the poller returns that error and the
update step is never completed. -/
theorem poll_all_success_comment_failure_propagates :
    runPoll false 100 3600 (initPollState ⟨mergedSamplePR⟩) [allSuccessCommentFailObs] =
      (some (.error (.commentFailed "cannot create git auth config service")),
       [.updatePullRequestStatus "https://bitbucket.example/pr/7",
        .completePullRequestStep "abc123def", .startUpdateStep,
        .listCommitStatus "own" "rep" "abc123def",
        .recordStatuses [("https://ci.example/build/6", "success")],
        .commentOnIssues]) := rfl

/-- Witness for C5's amended theorem at a concrete input: two identical
pending iterations, then success. -/
theorem poll_merged_all_success_witness :
    ∃ effs,
      runPoll false 100 3600 (initPollState ⟨mergedSamplePR⟩)
          (List.replicate 2 pendingObs ++ [successObs]) = (some (.ok ()), effs) ∧
      effs.count (PromoteEffect.completePullRequestStep "abc123def") = 1 ∧
      effs.count PromoteEffect.completeUpdateStep = 1 :=
  poll_merged_all_success false 100 3600 ⟨mergedSamplePR⟩ mergedSamplePR "abc123def"
    [pendingStatus] pendingObs successObs 2 rfl rfl (by decide) (by decide) (by decide)
    (by decide) (by decide) ⟨pendingStatus, by decide, by decide⟩ rfl rfl (by decide)
    rfl rfl rfl
